import Mathlib

/-!
Verification of the configuration-resolution engine of `pi-momo`.

The definitions below are shallow embeddings of the TypeScript sources:
* `stripJsoncComments` embeds `src/jsonc.ts` (a four-state character scanner
  followed by a regular-expression pass removing trailing commas);
* the configuration model (`pickRawValue`, `toBoundedInt`, `toBoolean`,
  `interpolateEnvVars`, `sanitizeContainerTag`, `loadConfigWithMeta`,
  `readJsoncFile`) embeds `src/config.ts`.

JavaScript strings are modelled as `List Char` / `String`, JavaScript numbers
as exact rationals together with explicit non-finite values (`JSNum`), the
process environment as a function `String → Option String`, and code that can
throw as `Except String`.
-/

/-- The character class matched by the JavaScript regular-expression escape
`\s` (also the set skipped by `parseInt` before reading digits). -/
def jsWhitespace (c : Char) : Bool :=
  c = ' ' || c = '\t' || c = '\n' || c = '\r' ||
  c.toNat = 11 || c.toNat = 12 || c.toNat = 0xa0 || c.toNat = 0x1680 ||
  (0x2000 ≤ c.toNat && c.toNat ≤ 0x200a) ||
  c.toNat = 0x2028 || c.toNat = 0x2029 || c.toNat = 0x202f ||
  c.toNat = 0x205f || c.toNat = 0x3000 || c.toNat = 0xfeff

/-- The four states of the scanner in `stripJsoncComments` (`enum Mode`). -/
inductive ScanMode
  | code
  | strLit
  | lineComment
  | blockComment
deriving DecidableEq

/-- The character-by-character scan loop of `stripJsoncComments`
(`src/jsonc.ts`, the `for` loop): strings are copied verbatim (escape pairs
kept together), `//` comments are dropped up to but not including the
newline, `/* */` comments are dropped except that inner newlines are kept. -/
def scanJsonc : ScanMode → List Char → List Char
  | _, [] => []
  | .strLit, c :: rest =>
    if c = '\\' then
      match rest with
      | [] => [c]
      | d :: rest' => c :: d :: scanJsonc .strLit rest'
    else if c = '"' then c :: scanJsonc .code rest
    else c :: scanJsonc .strLit rest
  | .lineComment, c :: rest =>
    if c = '\n' then '\n' :: scanJsonc .code rest
    else scanJsonc .lineComment rest
  | .blockComment, c :: rest =>
    if c = '*' then
      match rest with
      | '/' :: rest' => scanJsonc .code rest'
      | [] => []
      | d :: rest' => scanJsonc .blockComment (d :: rest')
    else if c = '\n' then '\n' :: scanJsonc .blockComment rest
    else scanJsonc .blockComment rest
  | .code, c :: rest =>
    if c = '"' then c :: scanJsonc .strLit rest
    else if c = '/' then
      match rest with
      | '/' :: rest' => scanJsonc .lineComment rest'
      | '*' :: rest' => scanJsonc .blockComment rest'
      | [] => [c]
      | d :: rest' => c :: scanJsonc .code (d :: rest')
    else c :: scanJsonc .code rest

/-- One attempted match of the tail of `,\s*([}\]])`: starting right after a
comma, skip whitespace greedily; succeed iff the next character is `}` or `]`,
returning that bracket and the remaining input. -/
def matchTail : List Char → Option (Char × List Char)
  | [] => none
  | c :: rest =>
    if c = '}' || c = ']' then some (c, rest)
    else if jsWhitespace c then matchTail rest
    else none

/-- Fuel-indexed scan of the global replacement
`.replace(/,\s*([}\]])/g, "$1")`: each match (comma, whitespace, bracket) is
replaced by the bracket alone, and scanning resumes after the match.  The fuel
never runs out when it starts at the input length. -/
def rtcGo : Nat → List Char → List Char
  | _, [] => []
  | 0, c :: rest => c :: rest
  | fuel + 1, c :: rest =>
    if c = ',' then
      match matchTail rest with
      | some (b, rest') => b :: rtcGo fuel rest'
      | none => c :: rtcGo fuel rest
    else c :: rtcGo fuel rest

/-- The trailing-comma pass of `stripJsoncComments`
(`.replace(/,\s*([}\]])/g, "$1")`), applied to the whole scanner output. -/
def removeTrailingCommas (l : List Char) : List Char :=
  rtcGo l.length l

/-- `stripJsoncComments` from `src/jsonc.ts`: the scan loop started in `Code`
mode, followed by the trailing-comma regular-expression pass. -/
def stripJsoncComments (s : String) : String :=
  String.mk (removeTrailingCommas (scanJsonc .code s.data))

/-- Decides whether the scanner pass copies the input verbatim: true iff the
scan never encounters `//` or `/*` while in `Code` mode. -/
def scanClean : ScanMode → List Char → Bool
  | _, [] => true
  | .strLit, c :: rest =>
    if c = '\\' then
      match rest with
      | [] => true
      | _ :: rest' => scanClean .strLit rest'
    else if c = '"' then scanClean .code rest
    else scanClean .strLit rest
  | .lineComment, _ => false
  | .blockComment, _ => false
  | .code, c :: rest =>
    if c = '"' then scanClean .strLit rest
    else if c = '/' then
      match rest with
      | '/' :: _ => false
      | '*' :: _ => false
      | _ => scanClean .code rest
    else scanClean .code rest

/-- Decides that no comma in the text is followed (modulo whitespace) by a
closing `}` or `]`, anywhere — inside or outside string literals. -/
def noTrailingCommaShape : List Char → Bool
  | [] => true
  | c :: rest =>
    (if c = ',' then (matchTail rest).isNone else true) && noTrailingCommaShape rest

/-! ## Configuration data model (`src/config.ts`) -/

/-- A JavaScript number as seen by `typeof`/`Number.isFinite`: an exact finite
value or one of the non-finite values. -/
inductive JSNum
  | finite (q : ℚ)
  | nan
  | inf
  | negInf
deriving DecidableEq

/-- An untyped JavaScript value as it can reach the config layer: the result
of `JSON.parse` (string, number, boolean, `null`, or a nested object/array,
conflated as `other`), an environment-variable string, or `undefined`. -/
inductive JSValue
  | str (s : String)
  | num (n : JSNum)
  | bool (b : Bool)
  | null
  | undef
  | other
deriving DecidableEq

/-- `typeof v === "string"`. -/
def jsIsString : JSValue → Bool
  | .str _ => true
  | _ => false

/-- The eight recognized configuration fields (`MomoPiConfig` keys). -/
inductive ConfigKey
  | baseUrl
  | apiKey
  | containerTag
  | autoRecall
  | autoCapture
  | maxRecallResults
  | profileFrequency
  | debug
deriving DecidableEq

/-- The `ConfigSource` union type: which of the six sources supplied a
field's raw value. -/
inductive ConfigSource
  | default
  | envMomoPi
  | envMomo
  | project
  | globalOmp
  | globalPi
deriving DecidableEq

/-- The process environment: `process.env[k]` is `string | undefined`. -/
abbrev Env := String → Option String

/-- A parsed configuration file (`MomoConfigFile`): `some v` means the key is
an own property holding `v` (`hasOwn` true), `none` means it is absent. -/
abbrev ConfigFileMap := ConfigKey → Option JSValue

/-- The empty parsed file `{}`. -/
def emptyConfigFile : ConfigFileMap := fun _ => none

/-- `pickRawValue` from `src/config.ts`: probe the two environment variables
(present iff set at all, `!== undefined`), then the three files (present iff
the key exists), then the default, returning the first present raw value
paired with its `ConfigSource` tag. -/
def pickRawValue (env : Env) (key : ConfigKey) (piEnvKey momoEnvKey : String)
    (projectConfig ompConfig piConfig : ConfigFileMap) (defaultValue : JSValue) :
    JSValue × ConfigSource :=
  match env piEnvKey with
  | some v => (.str v, .envMomoPi)
  | none =>
    match env momoEnvKey with
    | some v => (.str v, .envMomo)
    | none =>
      match projectConfig key with
      | some v => (v, .project)
      | none =>
        match ompConfig key with
        | some v => (v, .globalOmp)
        | none =>
          match piConfig key with
          | some v => (v, .globalPi)
          | none => (defaultValue, .default)

/-- Declarative reading of the resolution contract: the six source probes of
one field, in precedence order, each an optional raw value tagged with its
source.  The last probe (the built-in default) is always present. -/
def sourceProbes (env : Env) (key : ConfigKey) (piEnvKey momoEnvKey : String)
    (projectConfig ompConfig piConfig : ConfigFileMap) (defaultValue : JSValue) :
    List (Option JSValue × ConfigSource) :=
  [((env piEnvKey).map .str, .envMomoPi),
   ((env momoEnvKey).map .str, .envMomo),
   (projectConfig key, .project),
   (ompConfig key, .globalOmp),
   (piConfig key, .globalPi),
   (some defaultValue, .default)]

/-- Take the first present probe, keeping its value paired with its tag. -/
def firstPresent : List (Option JSValue × ConfigSource) → Option (JSValue × ConfigSource)
  | [] => none
  | (some v, s) :: _ => some (v, s)
  | (none, _) :: rest => firstPresent rest

deriving instance DecidableEq for Except

/-- `Math.round` on an exact rational: round half toward positive infinity,
that is, `⌊q + 1/2⌋`, computed on the numerator and denominator. -/
def jsRound (q : ℚ) : Int := (2 * q.num + (q.den : Int)) / (2 * (q.den : Int))

/-- Value of a decimal digit string. -/
def digitsToNat (l : List Char) : Nat :=
  l.foldl (fun a c => a * 10 + (c.toNat - 48)) 0

/-- `parseInt(s, 10)`: skip leading whitespace, read an optional sign and a
longest run of decimal digits; no digits means `NaN` (`none`). -/
def parseIntBase10 (s : String) : Option Int :=
  let l := s.data.dropWhile jsWhitespace
  let sl : Int × List Char :=
    match l with
    | '-' :: t => (-1, t)
    | '+' :: t => (1, t)
    | _ => (1, l)
  let digits := sl.2.takeWhile Char.isDigit
  if digits.isEmpty then none
  else some (sl.1 * (digitsToNat digits : Int))

/-- `toBoundedInt` from `src/config.ts`: a finite number is rounded and
clamped into `[mn, mx]`; a string is parsed with `parseInt(·, 10)` and, when
finite, rounded and clamped; everything else yields the fallback. -/
def toBoundedInt (value : JSValue) (fallback mn mx : Int) : Int :=
  match value with
  | .num (.finite q) =>
    let n := jsRound q
    if n < mn then mn else if n > mx then mx else n
  | .str s =>
    match parseIntBase10 s with
    | some p =>
      if p < mn then mn else if p > mx then mx else p
    | none => fallback
  | _ => fallback

/-- `toBoolean` from `src/config.ts`. -/
def toBoolean (value : JSValue) (fallback : Bool) : Bool :=
  match value with
  | .bool b => b
  | .str s =>
    let lower := s.toLower
    if lower = "true" || lower = "1" || lower = "yes" then true
    else if lower = "false" || lower = "0" || lower = "no" then false
    else fallback
  | _ => fallback

/-! ## Placeholder interpolation (`interpolateEnvVars`) -/

/-- Scan for the first unescaped `}` of a placeholder body, returning the
characters before it (the `[^}]+` capture, possibly empty here) and the
input after the brace; `none` when no `}` follows. -/
def takeName : List Char → Option (List Char × List Char)
  | [] => none
  | c :: rest =>
    if c = '}' then some ([], rest)
    else
      match takeName rest with
      | some (n, r) => some (c :: n, r)
      | none => none

/-- Attempt to match the part of `\$\{([^}]+)\}` that follows the `$`: a `{`,
a nonempty run of non-`}` characters, and the closing `}`. -/
def matchPlaceholder : List Char → Option (String × List Char)
  | [] => none
  | c :: rest =>
    if c = '{' then
      match takeName rest with
      | some (name, r) => if name.isEmpty then none else some (String.mk name, r)
      | none => none
    else none

/-- The error thrown by the interpolation callback. -/
def errMissing (name : String) : String :=
  "Environment variable " ++ name ++ " is not set"

/-- Fuel-indexed body of `interpolateEnvVars`
(`value.replace(/\$\{([^}]+)\}/g, ...)`): each matched `${NAME}` is replaced
by `process.env[NAME]`, except that an unset or empty variable (the `JS`
falsiness test `!envValue`) throws.  Replacement text is not rescanned.  The
fuel never runs out when it starts at the input length. -/
def interpGo (env : Env) : Nat → List Char → Except String (List Char)
  | _, [] => .ok []
  | 0, c :: rest => .ok (c :: rest)
  | fuel + 1, c :: rest =>
    if c = '$' then
      match matchPlaceholder rest with
      | some (name, rest') =>
        match env name with
        | some v =>
          if v = "" then .error (errMissing name)
          else (interpGo env fuel rest').map (fun t => v.data ++ t)
        | none => .error (errMissing name)
      | none => (interpGo env fuel rest).map (fun t => c :: t)
    else (interpGo env fuel rest).map (fun t => c :: t)

/-- `interpolateEnvVars` on character lists. -/
def interpolateList (env : Env) (l : List Char) : Except String (List Char) :=
  interpGo env l.length l

/-- `interpolateEnvVars` from `src/config.ts`. -/
def interpolateEnvVars (env : Env) (s : String) : Except String String :=
  (interpolateList env s.data).map String.mk

/-! ## Container-tag sanitization (`sanitizeContainerTag`) -/

/-- Membership in the character class `[A-Za-z0-9_]`. -/
def isWordChar (c : Char) : Bool :=
  c.isAlpha || c.isDigit || c = '_'

/-- First pass, `.replace(/[^A-Za-z0-9_]+/g, "_")`: each maximal run of
non-word characters becomes a single `_`.  The flag records whether the
previous character belonged to such a run. -/
def collapseNonWord : Bool → List Char → List Char
  | _, [] => []
  | inRun, c :: rest =>
    if isWordChar c then c :: collapseNonWord false rest
    else if inRun then collapseNonWord true rest
    else '_' :: collapseNonWord true rest

/-- Second pass, `.replace(/_+/g, "_")`: each maximal run of underscores
becomes a single `_`. -/
def collapseUnderscores : Bool → List Char → List Char
  | _, [] => []
  | prevU, c :: rest =>
    if c = '_' then
      if prevU then collapseUnderscores true rest
      else '_' :: collapseUnderscores true rest
    else c :: collapseUnderscores false rest

/-- The `_+$` half of the third pass: drop the trailing underscore run. -/
def dropTrailingUnderscores (l : List Char) : List Char :=
  (l.reverse.dropWhile (fun c => c = '_')).reverse

/-- `sanitizeContainerTag` on character lists: the three replacement passes
(collapse non-word runs, collapse underscore runs, strip the leading and the
trailing underscore run, `/^_+|_+$/g`). -/
def sanitizeList (l : List Char) : List Char :=
  dropTrailingUnderscores
    ((collapseUnderscores false (collapseNonWord false l)).dropWhile (fun c => c = '_'))

/-- `sanitizeContainerTag` from `src/config.ts`. -/
def sanitizeContainerTag (s : String) : String :=
  String.mk (sanitizeList s.data)

/-- Decides that no two consecutive characters are both underscores. -/
def noConsecUnd : List Char → Bool
  | [] => true
  | [_] => true
  | a :: b :: rest => !(a = '_' && b = '_') && noConsecUnd (b :: rest)

/-! ## Resolution (`loadConfigWithMeta`) -/

/-- `DEFAULTS.baseUrl`. -/
def DEFAULTS_baseUrl : String := "http://localhost:3000"

/-- `DEFAULTS.containerTag`, parameterized by the machine hostname. -/
def DEFAULTS_containerTag (hostname : String) : String := "pi_" ++ hostname

/-- The resolved configuration object (`MomoPiConfig`). -/
structure ResolvedConfig where
  baseUrl : String
  apiKey : Option String
  containerTag : String
  autoRecall : Bool
  autoCapture : Bool
  maxRecallResults : Int
  profileFrequency : Int
  debug : Bool
deriving DecidableEq

/-- The eight `pickRawValue` calls of `loadConfigWithMeta`, one per field,
with the environment-variable names and default values used at each call
site. -/
def pickFor (env : Env) (hostname : String) (project ompG piG : ConfigFileMap) :
    ConfigKey → JSValue × ConfigSource
  | .baseUrl =>
    pickRawValue env .baseUrl "MOMO_PI_BASE_URL" "MOMO_BASE_URL"
      project ompG piG (.str DEFAULTS_baseUrl)
  | .apiKey =>
    pickRawValue env .apiKey "MOMO_PI_API_KEY" "MOMO_API_KEY"
      project ompG piG .undef
  | .containerTag =>
    pickRawValue env .containerTag "MOMO_PI_CONTAINER_TAG" "MOMO_CONTAINER_TAG"
      project ompG piG (.str (DEFAULTS_containerTag hostname))
  | .autoRecall =>
    pickRawValue env .autoRecall "MOMO_PI_AUTO_RECALL" "MOMO_AUTO_RECALL"
      project ompG piG (.bool true)
  | .autoCapture =>
    pickRawValue env .autoCapture "MOMO_PI_AUTO_CAPTURE" "MOMO_AUTO_CAPTURE"
      project ompG piG (.bool true)
  | .maxRecallResults =>
    pickRawValue env .maxRecallResults "MOMO_PI_MAX_RECALL_RESULTS" "MOMO_MAX_RECALL_RESULTS"
      project ompG piG (.num (.finite 10))
  | .profileFrequency =>
    pickRawValue env .profileFrequency "MOMO_PI_PROFILE_FREQUENCY" "MOMO_PROFILE_FREQUENCY"
      project ompG piG (.num (.finite 50))
  | .debug =>
    pickRawValue env .debug "MOMO_PI_DEBUG" "MOMO_DEBUG"
      project ompG piG (.bool false)

/-- `baseUrlInput`: the winning raw value when it is a string, else the
built-in default. -/
def baseUrlInputOf (env : Env) (hostname : String) (project ompG piG : ConfigFileMap) : String :=
  match (pickFor env hostname project ompG piG .baseUrl).1 with
  | .str s => s
  | _ => DEFAULTS_baseUrl

/-- `containerTagInput`: the winning raw value when it is a string, else the
built-in default. -/
def containerTagInputOf (env : Env) (hostname : String) (project ompG piG : ConfigFileMap) : String :=
  match (pickFor env hostname project ompG piG .containerTag).1 with
  | .str s => s
  | _ => DEFAULTS_containerTag hostname

/-- The `apiKey` normalization of `loadConfigWithMeta` (lines 299–304): a
non-string raw value becomes `undefined`; an empty string is falsy and skips
interpolation, yielding `undefined`; otherwise the value is interpolated and
an empty result is normalized to `undefined`. -/
def resolveApiKey (env : Env) (raw : JSValue) : Except String (Option String) :=
  match raw with
  | .str s =>
    if s = "" then .ok none
    else
      (interpolateList env s.data).map
        (fun l => if l.length > 0 then some (String.mk l) else none)
  | _ => .ok none

/-- `loadConfigWithMeta` from `src/config.ts`, as a pure function of the
environment, the hostname, and the three already-parsed configuration files.
Interpolation errors abort the whole call in source order (`apiKey` at line
300, then `baseUrl`, then `containerTag`); the metadata maps every field to
the `ConfigSource` chosen by its `pickRawValue` call. -/
def loadConfigWithMeta (env : Env) (hostname : String)
    (project ompG piG : ConfigFileMap) :
    Except String (ResolvedConfig × (ConfigKey → ConfigSource)) :=
  let pick := pickFor env hostname project ompG piG
  match resolveApiKey env (pick .apiKey).1 with
  | .error e => .error e
  | .ok apiKeyV =>
    match interpolateList env (baseUrlInputOf env hostname project ompG piG).data with
    | .error e => .error e
    | .ok baseUrlL =>
      match interpolateList env (containerTagInputOf env hostname project ompG piG).data with
      | .error e => .error e
      | .ok tagL =>
        .ok
          ({ baseUrl := String.mk baseUrlL,
             apiKey := apiKeyV,
             containerTag := sanitizeContainerTag (String.mk tagL),
             autoRecall := toBoolean (pick .autoRecall).1 true,
             autoCapture := toBoolean (pick .autoCapture).1 true,
             maxRecallResults := toBoundedInt (pick .maxRecallResults).1 10 1 20,
             profileFrequency := toBoundedInt (pick .profileFrequency).1 50 1 500,
             debug := toBoolean (pick .debug).1 false },
           fun k => (pick k).2)

/-! ## File loading (`readJsoncFile`) -/

/-- A parsed top-level JSON object, as key/value entries. -/
abbrev ParsedObj := List (String × JSValue)

/-- `KNOWN_KEYS` from `src/config.ts`. -/
def KNOWN_KEYS : List String :=
  ["baseUrl", "apiKey", "containerTag", "autoRecall", "autoCapture",
   "maxRecallResults", "profileFrequency", "debug"]

/-- Membership test in `KNOWN_KEYS`. -/
def isKnownKey (k : String) : Bool := KNOWN_KEYS.contains k

/-- The JSON name of a configuration field. -/
def keyName : ConfigKey → String
  | .baseUrl => "baseUrl"
  | .apiKey => "apiKey"
  | .containerTag => "containerTag"
  | .autoRecall => "autoRecall"
  | .autoCapture => "autoCapture"
  | .maxRecallResults => "maxRecallResults"
  | .profileFrequency => "profileFrequency"
  | .debug => "debug"

/-- View a parsed object as a `ConfigFileMap` (last entry wins, as for a
JavaScript object literal). -/
def entriesToConfig (entries : ParsedObj) : ConfigFileMap :=
  fun k => (entries.reverse.find? (fun e => e.1 = keyName k)).map (fun e => e.2)

/-- `readJsoncFile` from `src/config.ts`: sanitize the raw text, parse it,
and reject the whole file (`catch { return {} }`) if parsing fails or any
top-level key is unknown.  `readFileSync`/`JSON.parse` are platform
builtins, so the parse stage is a parameter: it receives the sanitized text
and returns either the top-level entries or a thrown error. -/
def readJsoncFile (parse : String → Except String ParsedObj) (raw : String) : ConfigFileMap :=
  match parse (stripJsoncComments raw) with
  | .error _ => emptyConfigFile
  | .ok entries =>
    if entries.all (fun e => isKnownKey e.1) then entriesToConfig entries
    else emptyConfigFile

/-! ## Theorems about the sanitizer -/

theorem scanJsonc_of_scanClean (m : ScanMode) (l : List Char) :
    scanClean m l = true → scanJsonc m l = l := by
  induction m, l using scanJsonc.induct <;> intro h <;>
    rw [scanClean.eq_def] at h <;> rw [scanJsonc.eq_def] <;>
    simp_all +decide

theorem rtcGo_of_noShape (fuel : Nat) (l : List Char) :
    noTrailingCommaShape l = true → rtcGo fuel l = l := by
  induction fuel, l using rtcGo.induct <;> intro h <;>
    rw [noTrailingCommaShape.eq_def] at h <;> rw [rtcGo.eq_def] <;>
    simp_all +decide

/-- C3: the claim requires every comma-before-bracket sequence inside a
double-quoted string to be left untouched, and the code's own documentation
promises that string literals are kept intact; but the trailing-comma pass
runs on the whole text, so on the strict-JSON input `[",]"]` the comma inside
the string literal is deleted, producing `["]"]`. -/
theorem stripJsonc_mutates_string_literal_c3 :
    stripJsoncComments "[\",]\"]" = "[\"]\"]" := by decide

/-- C4 (counterexample): on the strict-JSON text `[",,]"]` (no comments, no
trailing commas) the sanitizer is not the identity, and applying it twice
differs from applying it once, refuting both halves of the claim. -/
theorem stripJsonc_not_idempotent_c4 :
    stripJsoncComments "[\",,]\"]" ≠ "[\",,]\"]" ∧
      stripJsoncComments (stripJsoncComments "[\",,]\"]") ≠
        stripJsoncComments "[\",,]\"]" := by
  exact ⟨by decide, by decide⟩

/-- C4 (amended): on any text in which no `//` or `/*` occurs outside
double-quoted strings and no comma is followed (modulo whitespace) by a
closing `}` or `]` anywhere — inside or outside strings — the sanitizer
returns its input unchanged, and is therefore idempotent on such texts. -/
theorem stripJsonc_clean_noop_c4 (s : String)
    (h1 : scanClean .code s.data = true)
    (h2 : noTrailingCommaShape s.data = true) :
    stripJsoncComments s = s ∧
      stripJsoncComments (stripJsoncComments s) = stripJsoncComments s := by
  have hid : stripJsoncComments s = s := by
    unfold stripJsoncComments removeTrailingCommas
    rw [scanJsonc_of_scanClean _ _ h1, rtcGo_of_noShape _ _ h2]
  exact ⟨hid, by rw [hid]; exact hid⟩

/-- C4 (witness): the strict-JSON text `[1, 2]` satisfies both cleanliness
conditions and is untouched by the sanitizer. -/
theorem stripJsonc_clean_noop_c4_witness :
    scanClean .code "[1, 2]".data = true ∧
      noTrailingCommaShape "[1, 2]".data = true ∧
      stripJsoncComments "[1, 2]" = "[1, 2]" :=
  ⟨by decide, by decide, (stripJsonc_clean_noop_c4 "[1, 2]" (by decide) (by decide)).1⟩

/-! ## Theorems about container-tag sanitization -/

theorem collapseNonWord_allWord (b : Bool) (l : List Char) :
    (collapseNonWord b l).all isWordChar = true := by
  induction b, l using collapseNonWord.induct <;>
    rw [collapseNonWord.eq_def] <;> simp_all +decide [isWordChar]

theorem collapseUnderscores_all (p : Char → Bool) (b : Bool) (l : List Char)
    (h : l.all p = true) : (collapseUnderscores b l).all p = true := by
  induction b, l using collapseUnderscores.induct <;>
    rw [collapseUnderscores.eq_def] <;> simp_all

theorem noConsecUnd_tail (c : Char) (l : List Char)
    (h : noConsecUnd (c :: l) = true) : noConsecUnd l = true := by
  cases l with
  | nil => rfl
  | cons b t =>
    rw [noConsecUnd.eq_def] at h
    simp only [Bool.and_eq_true] at h
    exact h.2

theorem collapseUnderscores_true_head (l : List Char) :
    ∀ d, (collapseUnderscores true l).head? = some d → d ≠ '_' := by
  induction l with
  | nil => intro d hd; simp [collapseUnderscores] at hd
  | cons c rest ih =>
    intro d hd
    rw [collapseUnderscores.eq_def] at hd
    by_cases hc : c = '_'
    · simp only [hc, if_pos rfl] at hd
      exact ih d hd
    · simp only [if_neg hc, List.head?_cons, Option.some.injEq] at hd
      rw [← hd]
      exact hc

theorem collapseUnderscores_noConsec (l : List Char) (b : Bool) :
    noConsecUnd (collapseUnderscores b l) = true := by
  induction l generalizing b with
  | nil => rfl
  | cons c rest ih =>
    rw [collapseUnderscores.eq_def]
    by_cases hc : c = '_'
    · cases b with
      | true => simpa [hc] using ih true
      | false =>
        simp only [hc, if_pos rfl, Bool.false_eq_true]
        cases hcu : collapseUnderscores true rest with
        | nil => rfl
        | cons d t =>
          rw [noConsecUnd.eq_def]
          have hd : d ≠ '_' := collapseUnderscores_true_head rest d (by rw [hcu]; rfl)
          have ht : noConsecUnd (d :: t) = true := by rw [← hcu]; exact ih true
          simp_all
    · simp only [if_neg hc]
      cases hcu : collapseUnderscores false rest with
      | nil => rfl
      | cons d t =>
        rw [noConsecUnd.eq_def]
        have ht : noConsecUnd (d :: t) = true := by rw [← hcu]; exact ih false
        simp_all

theorem collapseUnderscores_id (l : List Char) (h : noConsecUnd l = true) :
    collapseUnderscores false l = l ∧
      ((∀ d, l.head? = some d → d ≠ '_') → collapseUnderscores true l = l) := by
  induction l with
  | nil => exact ⟨rfl, fun _ => rfl⟩
  | cons c rest ih =>
    obtain ⟨ih1, ih2⟩ := ih (noConsecUnd_tail c rest h)
    constructor
    · rw [collapseUnderscores.eq_def]
      by_cases hc : c = '_'
      · have hrest : ∀ d, rest.head? = some d → d ≠ '_' := by
          intro d hd
          cases rest with
          | nil => simp at hd
          | cons b t =>
            simp only [List.head?_cons, Option.some.injEq] at hd
            rw [noConsecUnd.eq_def] at h
            simp only [Bool.and_eq_true, Bool.not_eq_eq_eq_not, Bool.not_true,
              Bool.and_eq_false_iff] at h
            rcases h.1 with h1 | h1 <;> simp_all +decide
        simp [hc, ih2 hrest]
      · simp only [if_neg hc, ih1]
    · intro hh
      have hc : c ≠ '_' := hh c rfl
      rw [collapseUnderscores.eq_def]
      simp only [if_neg hc, ih1]

theorem head_dropWhile_false (p : Char → Bool) (l : List Char) :
    ∀ a, (l.dropWhile p).head? = some a → p a = false := by
  induction l with
  | nil => simp
  | cons c rest ih =>
    intro a ha
    rw [List.dropWhile_cons] at ha
    by_cases hc : p c
    · exact ih a (by simpa [hc] using ha)
    · simp [hc] at ha
      subst ha
      simpa using hc

theorem dropWhile_all (p q : Char → Bool) (l : List Char) (h : l.all q = true) :
    (l.dropWhile p).all q = true := by
  induction l with
  | nil => simp
  | cons c rest ih =>
    rw [List.dropWhile_cons]
    simp only [List.all_cons, Bool.and_eq_true] at h
    by_cases hc : p c <;> simp_all

theorem noConsecUnd_dropWhile (p : Char → Bool) (l : List Char)
    (h : noConsecUnd l = true) : noConsecUnd (l.dropWhile p) = true := by
  induction l with
  | nil => exact h
  | cons c rest ih =>
    rw [List.dropWhile_cons]
    by_cases hc : p c
    · simpa [hc] using ih (noConsecUnd_tail c rest h)
    · simpa [hc] using h

theorem noConsecUnd_append_left (l₁ l₂ : List Char)
    (h : noConsecUnd (l₁ ++ l₂) = true) : noConsecUnd l₁ = true := by
  induction l₁ with
  | nil => rfl
  | cons c rest ih =>
    cases rest with
    | nil => rfl
    | cons b t =>
      rw [noConsecUnd.eq_def]
      rw [List.cons_append, List.cons_append, noConsecUnd.eq_def] at h
      simp only [Bool.and_eq_true] at h ⊢
      exact ⟨h.1, ih h.2⟩

theorem dropTrailingUnderscores_decomp (l : List Char) :
    dropTrailingUnderscores l ++ (l.reverse.takeWhile (fun c => c = '_')).reverse = l := by
  rw [dropTrailingUnderscores, ← List.reverse_append, List.takeWhile_append_dropWhile,
    List.reverse_reverse]

theorem dropTrailingUnderscores_all (q : Char → Bool) (l : List Char)
    (h : l.all q = true) : (dropTrailingUnderscores l).all q = true := by
  rw [dropTrailingUnderscores, List.all_reverse]
  exact dropWhile_all _ q l.reverse (by rw [List.all_reverse]; exact h)

theorem dropTrailingUnderscores_noConsec (l : List Char)
    (h : noConsecUnd l = true) : noConsecUnd (dropTrailingUnderscores l) = true := by
  exact noConsecUnd_append_left _ ((l.reverse.takeWhile (fun c => c = '_')).reverse)
    (by rw [dropTrailingUnderscores_decomp]; exact h)

theorem dropTrailingUnderscores_getLast (l : List Char) :
    ∀ a, (dropTrailingUnderscores l).getLast? = some a → a ≠ '_' := by
  intro a ha
  rw [dropTrailingUnderscores, ← List.head?_reverse, List.reverse_reverse] at ha
  have := head_dropWhile_false (fun c => c = '_') l.reverse a ha
  simpa using this

theorem dropTrailingUnderscores_head (l : List Char) :
    ∀ a, (dropTrailingUnderscores l).head? = some a → l.head? = some a := by
  intro a ha
  have hdec := dropTrailingUnderscores_decomp l
  cases hD : dropTrailingUnderscores l with
  | nil => rw [hD] at ha; simp at ha
  | cons c t =>
    rw [hD] at ha
    simp only [List.head?_cons, Option.some.injEq] at ha
    rw [← hdec, hD, ← ha]
    rfl

theorem dropWhile_id_of_head (p : Char → Bool) (l : List Char)
    (h : ∀ a, l.head? = some a → p a = false) : l.dropWhile p = l := by
  cases l with
  | nil => rfl
  | cons c rest =>
    rw [List.dropWhile_cons, if_neg]
    simp [h c rfl]

theorem dropTrailingUnderscores_id (l : List Char)
    (h : ∀ a, l.getLast? = some a → a ≠ '_') : dropTrailingUnderscores l = l := by
  rw [dropTrailingUnderscores, dropWhile_id_of_head, List.reverse_reverse]
  intro a ha
  rw [List.head?_reverse] at ha
  simpa using h a ha

theorem collapseNonWord_id (l : List Char) (h : l.all isWordChar = true) :
    collapseNonWord false l = l := by
  induction l with
  | nil => rfl
  | cons c rest ih =>
    simp only [List.all_cons, Bool.and_eq_true] at h
    rw [collapseNonWord.eq_def]
    simp [h.1, ih h.2]

theorem sanitizeList_all (l : List Char) : (sanitizeList l).all isWordChar = true :=
  dropTrailingUnderscores_all _ _
    (dropWhile_all _ _ _ (collapseUnderscores_all _ _ _ (collapseNonWord_allWord false l)))

theorem sanitizeList_noConsec (l : List Char) : noConsecUnd (sanitizeList l) = true :=
  dropTrailingUnderscores_noConsec _
    (noConsecUnd_dropWhile _ _ (collapseUnderscores_noConsec _ false))

theorem sanitizeList_head (l : List Char) :
    ∀ a, (sanitizeList l).head? = some a → a ≠ '_' := by
  intro a ha
  have := head_dropWhile_false (fun c => c = '_')
    (collapseUnderscores false (collapseNonWord false l)) a
    (dropTrailingUnderscores_head _ a ha)
  simpa using this

theorem sanitizeList_getLast (l : List Char) :
    ∀ a, (sanitizeList l).getLast? = some a → a ≠ '_' :=
  fun a ha => dropTrailingUnderscores_getLast _ a ha

theorem sanitizeList_idem (l : List Char) :
    sanitizeList (sanitizeList l) = sanitizeList l := by
  have h1 := collapseNonWord_id _ (sanitizeList_all l)
  have h2 := (collapseUnderscores_id _ (sanitizeList_noConsec l)).1
  rw [sanitizeList, h1, h2, dropWhile_id_of_head, dropTrailingUnderscores_id]
  · exact sanitizeList_getLast l
  · intro a ha
    simp [sanitizeList_head l a ha]

/-- C8: container-tag sanitization yields only `[A-Za-z0-9_]` characters with
no consecutive underscores and no leading or trailing underscore, it is
idempotent, and it maps `"my-project/name with spaces"` to
`"my_project_name_with_spaces"`. -/
theorem sanitizeContainerTag_c8 (s : String) :
    ((sanitizeContainerTag s).data.all isWordChar = true ∧
      noConsecUnd (sanitizeContainerTag s).data = true ∧
      (∀ a, (sanitizeContainerTag s).data.head? = some a → a ≠ '_') ∧
      (∀ a, (sanitizeContainerTag s).data.getLast? = some a → a ≠ '_')) ∧
    sanitizeContainerTag (sanitizeContainerTag s) = sanitizeContainerTag s ∧
    sanitizeContainerTag "my-project/name with spaces" = "my_project_name_with_spaces" := by
  refine ⟨⟨sanitizeList_all s.data, sanitizeList_noConsec s.data,
    sanitizeList_head s.data, sanitizeList_getLast s.data⟩, ?_, by decide⟩
  show String.mk (sanitizeList (String.mk (sanitizeList s.data)).data)
      = String.mk (sanitizeList s.data)
  rw [show (String.mk (sanitizeList s.data)).data = sanitizeList s.data from rfl,
    sanitizeList_idem]

/-- C8 (witness): sanitizing the already-sanitized form of `"a- b"` changes
nothing. -/
theorem sanitizeContainerTag_c8_witness :
    sanitizeContainerTag (sanitizeContainerTag "a- b") = sanitizeContainerTag "a- b" :=
  (sanitizeContainerTag_c8 "a- b").2.1

/-! ## Theorems about interpolation -/

theorem takeName_append (name post : List Char) (h : '}' ∉ name) :
    takeName (name ++ '}' :: post) = some (name, post) := by
  induction name with
  | nil => simp [takeName]
  | cons c rest ih =>
    have hc : c ≠ '}' := fun hc => h (hc ▸ List.mem_cons_self c rest)
    rw [List.cons_append, takeName.eq_def]
    simp only [if_neg hc]
    rw [ih (fun hm => h (List.mem_cons_of_mem c hm))]

theorem takeName_length (l : List Char) :
    ∀ n r, takeName l = some (n, r) → r.length < l.length := by
  induction l with
  | nil => intro n r h; simp [takeName] at h
  | cons c rest ih =>
    intro n r h
    rw [takeName.eq_def] at h
    by_cases hc : c = '}'
    · simp [hc] at h
      rw [← h.2]
      simp
    · simp only [if_neg hc] at h
      cases htn : takeName rest with
      | none => rw [htn] at h; simp at h
      | some p =>
        rw [htn] at h
        simp at h
        have := ih p.1 p.2 (by rw [htn])
        rw [← h.2]
        simp only [List.length_cons]
        omega

theorem matchPlaceholder_length (l : List Char) :
    ∀ n r, matchPlaceholder l = some (n, r) → r.length < l.length := by
  intro n r h
  cases l with
  | nil => simp [matchPlaceholder] at h
  | cons c rest =>
    rw [matchPlaceholder.eq_def] at h
    by_cases hc : c = '{'
    · simp only [hc, if_pos rfl] at h
      cases htn : takeName rest with
      | none => rw [htn] at h; simp at h
      | some p =>
        rw [htn] at h
        by_cases hp : p.1.isEmpty
        · simp [hp] at h
        · simp [hp] at h
          have := takeName_length rest p.1 p.2 (by rw [htn])
          rw [← h.2]
          simp only [List.length_cons]
          omega
    · simp [hc] at h

theorem interpGo_nil (env : Env) (fuel : Nat) : interpGo env fuel [] = .ok [] := by
  cases fuel <;> rfl

theorem interpGo_cons (env : Env) (fuel : Nat) (c : Char) (rest : List Char) :
    interpGo env (fuel + 1) (c :: rest) =
      if c = '$' then
        match matchPlaceholder rest with
        | some (name, rest') =>
          match env name with
          | some v =>
            if v = "" then .error (errMissing name)
            else (interpGo env fuel rest').map (fun t => v.data ++ t)
          | none => .error (errMissing name)
        | none => (interpGo env fuel rest).map (fun t => c :: t)
      else (interpGo env fuel rest).map (fun t => c :: t) := by
  rfl

theorem interpGo_congr (env : Env) :
    ∀ (f₁ f₂ : Nat) (l : List Char), l.length ≤ f₁ → l.length ≤ f₂ →
      interpGo env f₁ l = interpGo env f₂ l := by
  intro f₁
  induction f₁ with
  | zero =>
    intro f₂ l h1 h2
    have : l = [] := by cases l <;> simp_all
    rw [this, interpGo_nil, interpGo_nil]
  | succ f ih =>
    intro f₂ l h1 h2
    cases l with
    | nil => rw [interpGo_nil, interpGo_nil]
    | cons c rest =>
      cases f₂ with
      | zero => simp at h2
      | succ g =>
        rw [interpGo_cons, interpGo_cons]
        simp only [List.length_cons] at h1 h2
        by_cases hc : c = '$'
        · subst hc
          rw [if_pos rfl, if_pos rfl]
          cases hmp : matchPlaceholder rest with
          | none =>
            simp only []
            rw [ih g rest (by omega) (by omega)]
          | some p =>
            obtain ⟨name, rest'⟩ := p
            have hlen := matchPlaceholder_length rest name rest' hmp
            simp only []
            cases henv : env name with
            | none => rfl
            | some v =>
              simp only []
              by_cases hv : v = ""
              · rw [if_pos hv, if_pos hv]
              · rw [if_neg hv, if_neg hv, ih g rest' (by omega) (by omega)]
        · rw [if_neg hc, if_neg hc, ih g rest (by omega) (by omega)]

theorem interpGo_no_dollar (env : Env) (fuel : Nat) (l : List Char)
    (h : '$' ∉ l) : interpGo env fuel l = .ok l := by
  induction fuel generalizing l with
  | zero => cases l <;> rfl
  | succ f ih =>
    cases l with
    | nil => rfl
    | cons c rest =>
      have hc : c ≠ '$' := fun hc => h (hc ▸ List.mem_cons_self c rest)
      rw [interpGo.eq_def]
      simp only [if_neg hc]
      rw [ih rest (fun hm => h (List.mem_cons_of_mem c hm))]
      rfl

theorem interpolateList_no_dollar (env : Env) (l : List Char) (h : '$' ∉ l) :
    interpolateList env l = .ok l :=
  interpGo_no_dollar env l.length l h

theorem interpGo_placeholder (env : Env) (name post : List Char)
    (hname : '}' ∉ name) (hne : name ≠ []) :
    ∀ (pre : List Char) (fuel : Nat), '$' ∉ pre →
      (pre ++ '$' :: '{' :: (name ++ '}' :: post)).length ≤ fuel →
      interpGo env fuel (pre ++ '$' :: '{' :: (name ++ '}' :: post)) =
        match env (String.mk name) with
        | none => .error (errMissing (String.mk name))
        | some v =>
          if v = "" then .error (errMissing (String.mk name))
          else (interpolateList env post).map (fun t => pre ++ v.data ++ t) := by
  intro pre
  induction pre with
  | nil =>
    intro fuel hpre hlen
    simp only [List.nil_append, List.length_cons] at hlen ⊢
    cases fuel with
    | zero => omega
    | succ f =>
      have hemp : name.isEmpty = false := by
        cases name with
        | nil => exact absurd rfl hne
        | cons a b => rfl
      have hmp : matchPlaceholder ('{' :: (name ++ '}' :: post)) = some (String.mk name, post) := by
        rw [matchPlaceholder.eq_def]
        simp [takeName_append name post hname, hemp]
      have hpl : post.length ≤ f := by
        simp only [List.length_append, List.length_cons] at hlen
        omega
      rw [interpGo_cons, if_pos rfl, hmp]
      simp only []
      cases henv : env (String.mk name) with
      | none => rfl
      | some v =>
        simp only []
        by_cases hv : v = ""
        · rw [if_pos hv, if_pos hv]
        · rw [if_neg hv, if_neg hv]
          rw [interpolateList, interpGo_congr env f post.length post hpl (le_refl _)]
  | cons c pre' ih =>
    intro fuel hpre hlen
    have hc : c ≠ '$' := fun h => hpre (h ▸ List.mem_cons_self c pre')
    have hpre' : '$' ∉ pre' := fun h => hpre (List.mem_cons_of_mem c h)
    cases fuel with
    | zero => simp at hlen
    | succ f =>
      rw [List.cons_append, interpGo_cons, if_neg hc]
      rw [ih f hpre' (by simp at hlen ⊢; omega)]
      cases env (String.mk name) with
      | none => rfl
      | some v =>
        simp only []
        by_cases hv : v = ""
        · rw [if_pos hv, if_pos hv]
          rfl
        · rw [if_neg hv, if_neg hv]
          cases interpolateList env post with
          | error e => rfl
          | ok t => simp [Except.map]

/-- C2 (amended): every `${NAME}` placeholder in an interpolated string is
replaced by the value of environment variable `NAME`; when the first
placeholder's variable is unset **or set to the empty string**, interpolation
aborts with the missing-variable error; a dollar-free string is returned
unchanged; and a successful resolution implies the winning `baseUrl` input
interpolated successfully to the returned field (so a failing interpolation
yields no partial configuration). -/
theorem interpolateEnvVars_c2 :
    (∀ (env : Env) (l : List Char), '$' ∉ l → interpolateList env l = .ok l) ∧
    (∀ (env : Env) (pre name post : List Char), '$' ∉ pre → '}' ∉ name → name ≠ [] →
      interpolateList env (pre ++ '$' :: '{' :: (name ++ '}' :: post)) =
        match env (String.mk name) with
        | none => .error (errMissing (String.mk name))
        | some v =>
          if v = "" then .error (errMissing (String.mk name))
          else (interpolateList env post).map (fun t => pre ++ v.data ++ t)) ∧
    (∀ (env : Env) (hostname : String) (p o q : ConfigFileMap) r,
      loadConfigWithMeta env hostname p o q = .ok r →
      interpolateEnvVars env (baseUrlInputOf env hostname p o q) = .ok r.1.baseUrl) := by
  refine ⟨interpolateList_no_dollar, ?_, ?_⟩
  · intro env pre name post hpre hname hne
    exact interpGo_placeholder env name post hname hne pre _ hpre (le_refl _)
  · intro env hostname p o q r h
    simp only [loadConfigWithMeta] at h
    cases hak : resolveApiKey env (pickFor env hostname p o q ConfigKey.apiKey).1 with
    | error e => rw [hak] at h; simp at h
    | ok akv =>
      rw [hak] at h
      simp only [] at h
      cases hbu : interpolateList env (baseUrlInputOf env hostname p o q).data with
      | error e => rw [hbu] at h; simp at h
      | ok buL =>
        rw [hbu] at h
        simp only [] at h
        cases htg : interpolateList env (containerTagInputOf env hostname p o q).data with
        | error e => rw [htg] at h; simp at h
        | ok tgL =>
          rw [htg] at h
          simp only [Except.ok.injEq] at h
          rw [interpolateEnvVars, hbu, ← h]
          rfl

/-- C2 (counterexample): the claim says resolution fails if and only if the
referenced variable is unset; but with `NAME` set to the empty string — not
unset — both the interpolation and the whole resolution still fail. -/
theorem interpolateEnvVars_c2_cex :
    (fun n => if n = "NAME" then some "" else none : Env) "NAME" = some "" ∧
    interpolateEnvVars (fun n => if n = "NAME" then some "" else none) "${NAME}"
      = .error "Environment variable NAME is not set" ∧
    (loadConfigWithMeta (fun n => if n = "NAME" then some "" else none) "h"
        (fun k => if k = ConfigKey.baseUrl then some (JSValue.str "${NAME}") else none)
        emptyConfigFile emptyConfigFile).map (fun _ => ())
      = .error "Environment variable NAME is not set" :=
  ⟨by decide, by decide, by decide⟩

/-- C2 (witness): interpolating `a${N}b` with `N` set to `x` yields `axb`. -/
theorem interpolateEnvVars_c2_witness :
    interpolateList (fun n => if n = "N" then some "x" else none)
        (['a'] ++ '$' :: '{' :: (['N'] ++ '}' :: ['b'])) = .ok ['a', 'x', 'b'] := by
  have h := interpolateEnvVars_c2.2.1 (fun n => if n = "N" then some "x" else none)
    ['a'] ['N'] ['b'] (by decide) (by decide) (by decide)
  rw [h]
  decide

/-- C9: when the raw `apiKey` is a string whose interpolation yields `v`, the
resolved `apiKey` is absent exactly when `v` is empty and is `v` otherwise;
a successfully resolved `apiKey` is never the empty string. -/
theorem resolveApiKey_c9 :
    (∀ (env : Env) (s v : String), interpolateEnvVars env s = .ok v →
      resolveApiKey env (.str s) = .ok (if v = "" then none else some v)) ∧
    (∀ (env : Env) (raw : JSValue) (r : Option String),
      resolveApiKey env raw = .ok r → r ≠ some "") := by
  constructor
  · intro env s v h
    by_cases hs : s = ""
    · subst hs
      rw [show interpolateEnvVars env "" = .ok "" from rfl] at h
      simp only [Except.ok.injEq] at h
      rw [← h]
      rfl
    · simp only [resolveApiKey, if_neg hs]
      rw [interpolateEnvVars] at h
      cases hi : interpolateList env s.data with
      | error e => rw [hi] at h; exact absurd h (by simp [Except.map])
      | ok l =>
        rw [hi] at h
        simp only [Except.map, Except.ok.injEq] at h
        subst h
        simp only [Except.map, Except.ok.injEq]
        by_cases hl : l = []
        · subst hl
          simp [show String.mk [] = "" from rfl]
        · have hne : String.mk l ≠ "" := by
            intro hh
            apply hl
            have := congrArg String.data hh
            simpa using this
          have hlen : l.length > 0 := List.length_pos.mpr hl
          simp [hlen, hne]
  · intro env raw r h hcon
    subst hcon
    cases raw with
    | str s =>
      simp only [resolveApiKey] at h
      by_cases hs : s = ""
      · rw [if_pos hs] at h
        simp at h
      · rw [if_neg hs] at h
        cases hi : interpolateList env s.data with
        | error e => rw [hi] at h; simp [Except.map] at h
        | ok l =>
          rw [hi] at h
          simp only [Except.map, Except.ok.injEq] at h
          by_cases hl : l.length > 0
          · rw [if_pos hl] at h
            simp only [Option.some.injEq] at h
            have := congrArg String.data h
            simp at this
            subst this
            simp at hl
          · rw [if_neg hl] at h
            simp at h
    | num n => simp [resolveApiKey] at h
    | bool b => simp [resolveApiKey] at h
    | null => simp [resolveApiKey] at h
    | undef => simp [resolveApiKey] at h
    | other => simp [resolveApiKey] at h

/-- C9 (witness): a plain non-empty key is kept as-is. -/
theorem resolveApiKey_c9_witness :
    resolveApiKey (fun _ => none) (.str "abc") = .ok (some "abc") := by
  have h := resolveApiKey_c9.1 (fun _ => none) "abc" "abc"
    (by rw [interpolateEnvVars, interpolateList_no_dollar _ _ (by decide)]; rfl)
  simpa using h

/-! ## Theorems about precedence and resolution -/

/-- C1: `pickRawValue` returns exactly the first present probe of the six
ordered sources, paired with that probe's tag; each field's raw resolution
depends only on its own two environment variables and its own file entries;
and in a successful resolution the metadata records, for every field, the
tag chosen by its `pickRawValue` call. -/
theorem pickRawValue_c1 :
    (∀ (env : Env) (key : ConfigKey) (pk mk : String) (p o q : ConfigFileMap) (d : JSValue),
      firstPresent (sourceProbes env key pk mk p o q d) =
        some (pickRawValue env key pk mk p o q d)) ∧
    (∀ (env env' : Env) (key : ConfigKey) (pk mk : String)
        (p p' o o' q q' : ConfigFileMap) (d : JSValue),
      env pk = env' pk → env mk = env' mk → p key = p' key → o key = o' key →
      q key = q' key →
      pickRawValue env key pk mk p o q d = pickRawValue env' key pk mk p' o' q' d) ∧
    (∀ (env : Env) (hostname : String) (p o q : ConfigFileMap) r,
      loadConfigWithMeta env hostname p o q = .ok r →
      ∀ k, r.2 k = (pickFor env hostname p o q k).2) := by
  refine ⟨?_, ?_, ?_⟩
  · intro env key pk mk p o q d
    simp only [sourceProbes, pickRawValue]
    cases env pk <;> cases env mk <;> cases p key <;> cases o key <;> cases q key <;>
      simp [firstPresent]
  · intro env env' key pk mk p p' o o' q q' d h1 h2 h3 h4 h5
    unfold pickRawValue
    rw [h1, h2, h3, h4, h5]
  · intro env hostname p o q r h k
    simp only [loadConfigWithMeta] at h
    cases hak : resolveApiKey env (pickFor env hostname p o q ConfigKey.apiKey).1 with
    | error e => rw [hak] at h; simp at h
    | ok akv =>
      rw [hak] at h
      simp only [] at h
      cases hbu : interpolateList env (baseUrlInputOf env hostname p o q).data with
      | error e => rw [hbu] at h; simp at h
      | ok buL =>
        rw [hbu] at h
        simp only [] at h
        cases htg : interpolateList env (containerTagInputOf env hostname p o q).data with
        | error e => rw [htg] at h; simp at h
        | ok tgL =>
          rw [htg] at h
          simp only [Except.ok.injEq] at h
          rw [← h]

/-- C1 (witness): two environments and project files that agree on
`baseUrl`'s own inputs but differ elsewhere resolve `baseUrl` identically. -/
theorem pickRawValue_c1_witness :
    pickRawValue (fun n => if n = "PK" then some "v" else none) ConfigKey.baseUrl "PK" "MK"
        emptyConfigFile emptyConfigFile emptyConfigFile (JSValue.str "d")
      = pickRawValue (fun n => if n = "PK" then some "v" else if n = "MK" then none else some "z")
          ConfigKey.baseUrl "PK" "MK"
          (fun k => if k = ConfigKey.baseUrl then none else some JSValue.null)
          emptyConfigFile emptyConfigFile (JSValue.str "d") :=
  pickRawValue_c1.2.1
    (fun n => if n = "PK" then some "v" else none)
    (fun n => if n = "PK" then some "v" else if n = "MK" then none else some "z")
    ConfigKey.baseUrl "PK" "MK"
    emptyConfigFile (fun k => if k = ConfigKey.baseUrl then none else some JSValue.null)
    emptyConfigFile emptyConfigFile emptyConfigFile emptyConfigFile (JSValue.str "d")
    (by decide) (by decide) (by decide) (by decide) (by decide)

/-- C7: an environment variable set to the empty string counts as present
and wins over every file value; with both environment tiers unset, any key
present in the project file — whatever its value, including `null` and
`false` — wins. -/
theorem pickRawValue_presence_c7 :
    (∀ (env : Env) (key : ConfigKey) (pk mk : String) (p o q : ConfigFileMap) (d : JSValue),
      env pk = some "" →
      pickRawValue env key pk mk p o q d = (.str "", .envMomoPi)) ∧
    (∀ (env : Env) (key : ConfigKey) (pk mk : String) (p o q : ConfigFileMap) (d : JSValue) v,
      env pk = none → env mk = none → p key = some v →
      pickRawValue env key pk mk p o q d = (v, .project)) := by
  constructor
  · intro env key pk mk p o q d h
    unfold pickRawValue
    rw [h]
  · intro env key pk mk p o q d v h1 h2 h3
    unfold pickRawValue
    rw [h1, h2, h3]

/-- C7 (witness): an empty-string environment value beats a non-empty
project-file value. -/
theorem pickRawValue_presence_c7_witness :
    pickRawValue (fun n => if n = "PK" then some "" else none) ConfigKey.baseUrl "PK" "MK"
        (fun _ => some (JSValue.str "fileValue")) emptyConfigFile emptyConfigFile
        (JSValue.str "d")
      = (JSValue.str "", ConfigSource.envMomoPi) :=
  pickRawValue_presence_c7.1 (fun n => if n = "PK" then some "" else none)
    ConfigKey.baseUrl "PK" "MK" (fun _ => some (JSValue.str "fileValue"))
    emptyConfigFile emptyConfigFile (JSValue.str "d") (by decide)

/-- C5: a file whose sanitized text fails to parse contributes the empty
file; a parsed file with any unknown top-level key is rejected in its
entirety; and with an empty (rejected) project file and unset environment
tiers, a field defined in the first global tier wins there. -/
theorem readJsoncFile_c5 :
    (∀ (parse : String → Except String ParsedObj) (raw : String) e,
      parse (stripJsoncComments raw) = .error e →
      readJsoncFile parse raw = emptyConfigFile) ∧
    (∀ (parse : String → Except String ParsedObj) (raw : String) entries kv,
      parse (stripJsoncComments raw) = .ok entries → kv ∈ entries →
      isKnownKey kv.1 = false →
      readJsoncFile parse raw = emptyConfigFile) ∧
    (∀ (env : Env) (key : ConfigKey) (pk mk : String) (o q : ConfigFileMap) (d : JSValue) v,
      env pk = none → env mk = none → o key = some v →
      pickRawValue env key pk mk emptyConfigFile o q d = (v, .globalOmp)) := by
  refine ⟨?_, ?_, ?_⟩
  · intro parse raw e h
    unfold readJsoncFile
    rw [h]
  · intro parse raw entries kv h hmem hk
    unfold readJsoncFile
    rw [h]
    have hall : entries.all (fun e => isKnownKey e.1) = false :=
      List.all_eq_false.mpr ⟨kv, hmem, by simp [hk]⟩
    simp [hall]
  · intro env key pk mk o q d v h1 h2 h3
    unfold pickRawValue
    rw [h1, h2, h3]
    rfl

/-- C5 (witness): a file parsing to `{"baseUrl": "x", "typo": "y"}` is fully
rejected. -/
theorem readJsoncFile_c5_witness :
    readJsoncFile
        (fun _ => .ok [("baseUrl", JSValue.str "x"), ("typo", JSValue.str "y")]) ""
      = emptyConfigFile :=
  readJsoncFile_c5.2.1 _ "" _ ("typo", JSValue.str "y") rfl (by decide) (by decide)

/-- C6: bounded integer coercion rounds a finite number half-up to the
nearest integer and clamps it into `[mn, mx]`; a string is parsed as a
base-10 integer and clamped likewise; an unparsable string or any
non-finite or non-numeric value falls back to the default; and through the
full resolver, `maxRecallResults` inputs `-5` and `100` resolve to `1` and
`20` while `profileFrequency` inputs `-5` and `1000` resolve to `1` and
`500`. -/
theorem toBoundedInt_c6 :
    (∀ (q : ℚ) (fb mn mx : Int), mn ≤ mx →
      toBoundedInt (.num (.finite q)) fb mn mx = min mx (max mn (jsRound q))) ∧
    (∀ q : ℚ, jsRound q = ⌊q + 1 / 2⌋) ∧
    (∀ (s : String) (n fb mn mx : Int), mn ≤ mx → parseIntBase10 s = some n →
      toBoundedInt (.str s) fb mn mx = min mx (max mn n)) ∧
    (∀ (s : String) (fb mn mx : Int), parseIntBase10 s = none →
      toBoundedInt (.str s) fb mn mx = fb) ∧
    (∀ fb mn mx : Int,
      toBoundedInt (.num .nan) fb mn mx = fb ∧
      toBoundedInt (.num .inf) fb mn mx = fb ∧
      toBoundedInt (.num .negInf) fb mn mx = fb ∧
      toBoundedInt .null fb mn mx = fb ∧
      toBoundedInt (.bool true) fb mn mx = fb ∧
      toBoundedInt .undef fb mn mx = fb) ∧
    ((loadConfigWithMeta (fun _ => none) "h"
        (fun k => if k = ConfigKey.maxRecallResults then some (.num (.finite (-5))) else none)
        emptyConfigFile emptyConfigFile).map (fun r => r.1.maxRecallResults) = .ok 1 ∧
     (loadConfigWithMeta (fun _ => none) "h"
        (fun k => if k = ConfigKey.maxRecallResults then some (.num (.finite 100)) else none)
        emptyConfigFile emptyConfigFile).map (fun r => r.1.maxRecallResults) = .ok 20 ∧
     (loadConfigWithMeta (fun _ => none) "h"
        (fun k => if k = ConfigKey.profileFrequency then some (.num (.finite (-5))) else none)
        emptyConfigFile emptyConfigFile).map (fun r => r.1.profileFrequency) = .ok 1 ∧
     (loadConfigWithMeta (fun _ => none) "h"
        (fun k => if k = ConfigKey.profileFrequency then some (.num (.finite 1000)) else none)
        emptyConfigFile emptyConfigFile).map (fun r => r.1.profileFrequency) = .ok 500) := by
  refine ⟨?_, ?_, ?_, ?_, ?_, by decide, by decide, by decide, by decide⟩
  · intro q fb mn mx hb
    simp only [toBoundedInt]
    split
    · omega
    · split <;> omega
  · intro q
    have h2 : q + 1 / 2 = ((2 * q.num + (q.den : Int) : Int) : ℚ) / ((2 * q.den : ℕ) : ℚ) := by
      have hd0 : ((q.den : ℚ)) ≠ 0 := by
        exact_mod_cast q.den_nz
      conv_lhs => rw [← Rat.num_div_den q]
      push_cast
      field_simp
      ring
    rw [jsRound, h2, Rat.floor_intCast_div_natCast]
    push_cast
    rfl
  · intro s n fb mn mx hb hp
    simp only [toBoundedInt, hp]
    split
    · omega
    · split <;> omega
  · intro s fb mn mx hp
    simp only [toBoundedInt, hp]
  · intro fb mn mx
    exact ⟨rfl, rfl, rfl, rfl, rfl, rfl⟩

/-- C6 (witness): a finite input of `100` with bounds `[1, 20]` clamps to
`20`. -/
theorem toBoundedInt_c6_witness :
    toBoundedInt (.num (.finite 100)) 10 1 20 = 20 := by
  have h := toBoundedInt_c6.1 100 10 1 20 (by decide)
  rw [h]
  decide

theorem pickRawValue_str_default_source (env : Env) (key : ConfigKey) (pk mk : String)
    (p o q : ConfigFileMap) (ds : String)
    (h : jsIsString (pickRawValue env key pk mk p o q (.str ds)).1 = false) :
    (pickRawValue env key pk mk p o q (.str ds)).2 ≠ .default := by
  unfold pickRawValue at *
  cases h1 : env pk <;> cases h2 : env mk <;> cases h3 : p key <;> cases h4 : o key <;>
    cases h5 : q key <;> simp_all [jsIsString]

/-- C10: in a successful resolution where the winning raw `baseUrl`
(respectively `containerTag`) value is not a string, the resolved field is
the interpolated built-in default (sanitized, for the tag), while the
metadata still records the source of the discarded non-string value, which
is never `default`. -/
theorem nonstring_default_c10 (env : Env) (hostname : String)
    (p o q : ConfigFileMap) (r : ResolvedConfig × (ConfigKey → ConfigSource))
    (h : loadConfigWithMeta env hostname p o q = .ok r) :
    (jsIsString (pickFor env hostname p o q .baseUrl).1 = false →
      interpolateEnvVars env DEFAULTS_baseUrl = .ok r.1.baseUrl ∧
      r.2 .baseUrl = (pickFor env hostname p o q .baseUrl).2 ∧
      (pickFor env hostname p o q .baseUrl).2 ≠ .default) ∧
    (jsIsString (pickFor env hostname p o q .containerTag).1 = false →
      (∃ t, interpolateEnvVars env (DEFAULTS_containerTag hostname) = .ok t ∧
        r.1.containerTag = sanitizeContainerTag t) ∧
      r.2 .containerTag = (pickFor env hostname p o q .containerTag).2 ∧
      (pickFor env hostname p o q .containerTag).2 ≠ .default) := by
  simp only [loadConfigWithMeta] at h
  cases hak : resolveApiKey env (pickFor env hostname p o q ConfigKey.apiKey).1 with
  | error e => rw [hak] at h; simp at h
  | ok akv =>
    rw [hak] at h
    simp only [] at h
    cases hbu : interpolateList env (baseUrlInputOf env hostname p o q).data with
    | error e => rw [hbu] at h; simp at h
    | ok buL =>
      rw [hbu] at h
      simp only [] at h
      cases htg : interpolateList env (containerTagInputOf env hostname p o q).data with
      | error e => rw [htg] at h; simp at h
      | ok tgL =>
        rw [htg] at h
        simp only [Except.ok.injEq] at h
        constructor
        · intro hns
          have hbi : baseUrlInputOf env hostname p o q = DEFAULTS_baseUrl := by
            unfold baseUrlInputOf
            cases hpv : (pickFor env hostname p o q ConfigKey.baseUrl).1 <;>
              simp_all [jsIsString]
          refine ⟨?_, ?_, ?_⟩
          · rw [interpolateEnvVars, ← hbi, hbu, ← h]
            rfl
          · rw [← h]
          · exact pickRawValue_str_default_source env .baseUrl _ _ p o q _ hns
        · intro hns
          have hci : containerTagInputOf env hostname p o q
              = DEFAULTS_containerTag hostname := by
            unfold containerTagInputOf
            cases hpv : (pickFor env hostname p o q ConfigKey.containerTag).1 <;>
              simp_all [jsIsString]
          refine ⟨⟨String.mk tgL, ?_, ?_⟩, ?_, ?_⟩
          · rw [interpolateEnvVars, ← hci, htg]
            rfl
          · rw [← h]
          · rw [← h]
          · exact pickRawValue_str_default_source env .containerTag _ _ p o q _ hns

/-- C10 (witness): with a project file setting `baseUrl` to `null`, the
recorded source for `baseUrl` is `project`, not `default`. -/
theorem nonstring_default_c10_witness :
    (pickFor (fun _ => none) "h"
        (fun k => if k = ConfigKey.baseUrl then some JSValue.null else none)
        emptyConfigFile emptyConfigFile ConfigKey.baseUrl).2 ≠ ConfigSource.default := by
  have hok : loadConfigWithMeta (fun _ => none) "h"
      (fun k => if k = ConfigKey.baseUrl then some JSValue.null else none)
      emptyConfigFile emptyConfigFile
    = .ok ({ baseUrl := "http://localhost:3000", apiKey := none, containerTag := "pi_h",
             autoRecall := true, autoCapture := true, maxRecallResults := 10,
             profileFrequency := 50, debug := false },
           fun k => (pickFor (fun _ => none) "h"
             (fun k => if k = ConfigKey.baseUrl then some JSValue.null else none)
             emptyConfigFile emptyConfigFile k).2) := by rfl
  exact ((nonstring_default_c10 (fun _ => none) "h"
    (fun k => if k = ConfigKey.baseUrl then some JSValue.null else none)
    emptyConfigFile emptyConfigFile _ hok).1 (by decide)).2.2
